import Mathlib

/-!
Verification of a two-pass Hack assembler (Rust, `src/main.rs`).

Strings are modelled as `List Char` (the code works through `str::chars()`
everywhere); `String.data` is used to write concrete inputs.  Rust's
`HashMap<Option<String>, String>` is modelled as an association list where
`insert` prepends and `get` returns the most recent binding, which is
observationally equivalent for the operations the program uses
(`get`, `contains_key`, `insert`).  Functions that can `panic!` or `unwrap`
a `None` return `Option` values, `none` standing for the aborted run.
-/

namespace HackAssembler

/-- Kinds of parsed commands (enum `CommandKind` in the source). -/
inductive CommandKind where
  | ACommand
  | CCommand
  | LCommand
  | ICommand
deriving DecidableEq, Repr

/-- Parsed representation of one source line (struct `ParsedLine`). -/
structure ParsedLine where
  command_type : CommandKind
  symbol : Option (List Char)
  dest : Option (List Char)
  comp : Option (List Char)
  jump : Option (List Char)
  line_number : Int
deriving DecidableEq, Repr

/-- Unicode white-space, as recognised by Rust `char::is_whitespace`
(the predicate behind `str::trim` and `str::split_whitespace`). -/
def isRustWhitespace (c : Char) : Bool :=
  c.val == 0x09 || c.val == 0x0A || c.val == 0x0B || c.val == 0x0C || c.val == 0x0D ||
  c.val == 0x20 || c.val == 0x85 || c.val == 0xA0 || c.val == 0x1680 ||
  (decide (0x2000 ≤ c.val) && decide (c.val ≤ 0x200A)) || c.val == 0x2028 ||
  c.val == 0x2029 || c.val == 0x202F || c.val == 0x205F || c.val == 0x3000

/-- Rust `str::trim`: drop leading and trailing white-space. -/
def trimChars (l : List Char) : List Char :=
  ((l.dropWhile isRustWhitespace).reverse.dropWhile isRustWhitespace).reverse

/-- Rust `s.split_whitespace().collect::<String>()`: delete every
white-space character. -/
def removeWs (l : List Char) : List Char :=
  l.filter (fun c => !isRustWhitespace c)

/-- Rust `s.contains("//")`: some character equal to `/` is immediately
followed by another `/`. -/
def hasDoubleSlash : List Char → Bool
  | [] => false
  | c :: rest => (c == '/' && rest.head? == some '/') || hasDoubleSlash rest

/-- Rust `s.starts_with("//")`. -/
def startsWithSlashSlash (l : List Char) : Bool :=
  match l with
  | c1 :: c2 :: _ => c1 == '/' && c2 == '/'
  | _ => false

/-- Rust `Iterator::position`: index of the first character satisfying `p`. -/
def findPos (p : Char → Bool) : List Char → Option Nat
  | [] => none
  | c :: rest => if p c then some 0 else (findPos p rest).map (· + 1)

/-- The preprocessor `preprocess_line` (src/main.rs:200-238): trim, strip a
comment, delete white-space; `none` for blank or pure-comment lines.
The source computes `comment_start_index - 1` in `usize`; for index `0`
that subtraction underflows (a panic in a debug build) — here Nat
subtraction truncates at `0`, and no theorem below depends on that case. -/
def preprocess_line (line : List Char) : Option (List Char) :=
  let line_trimmed := trimChars line
  if hasDoubleSlash line_trimmed then
    if startsWithSlashSlash line_trimmed then none
    else
      match findPos (fun x => x == '/') line_trimmed with
      | none => none
      | some comment_start_index =>
          some (removeWs (line_trimmed.take (comment_start_index - 1)))
  else
    let potential_instruction := removeWs line
    if potential_instruction.isEmpty then none else some potential_instruction

/-- Rust `char::is_numeric`; on the ASCII alphabet this program reads it is
exactly `Char.isDigit`. -/
def isNumericChar (c : Char) : Bool := c.isDigit

/-- Binary operators that the parser treats as always binary. -/
def opBinPred (c : Char) : Bool := c == '+' || c == '&' || c == '|'

/-- Operators that the parser must disambiguate between unary and binary. -/
def negPred (c : Char) : Bool := c == '-' || c == '!'

/-- Rust `line.contains("=")`. -/
def hasEq (line : List Char) : Bool := line.any (fun c => c == '=')

/-- Rust `line.contains(|x| x == '+' || x == '-' || x == '&' || x == '|')`
(the test guarding the jump-only branch of the `;` case). -/
def hasOp (line : List Char) : Bool :=
  line.any (fun c => c == '+' || c == '-' || c == '&' || c == '|')

/-- Mutable loop state of `parse_line`. -/
structure PState where
  ct : CommandKind
  sym : Option (List Char)
  des : Option (List Char)
  temp_comp : List Char
  jmp : Option (List Char)
deriving DecidableEq, Repr

/-- The body of the `else` arm of the character loop of `parse_line`
(src/main.rs:80-176): the effect of visiting one character `c` of a
C-command, where `line` is the whole line and `st` the loop state with
`ct` already set to `CCommand`.  `none` models an `unwrap` panic. -/
def parseCStep (line : List Char) (st : PState) (c : Char) : Option PState :=
  if c = '=' then
    match findPos (fun x => x == '=') line with
    | none => none
    | some pos_of_eq =>
      match line.get? (pos_of_eq + 1) with
      | none => none
      | some d =>
          some { st with des := some (line.take pos_of_eq),
                         temp_comp := st.temp_comp ++ [d] }
  else if opBinPred c then
    match findPos opBinPred line with
    | none => none
    | some pos_of_op =>
      if hasEq line then
        some { st with temp_comp := st.temp_comp ++ (line.drop pos_of_op).take 2 }
      else
        match pos_of_op with
        | 0 => none
        | q + 1 =>
            some { st with temp_comp := st.temp_comp ++ (line.drop q).take 3 }
  else if negPred c then
    match findPos negPred line with
    | none => none
    | some pos_of_op =>
      if pos_of_op ≠ 0 ∧ c = '-' then
        match line.get? (pos_of_op - 1) with
        | none => none
        | some b =>
          if b = '=' then
            match line.get? (pos_of_op + 1) with
            | none => none
            | some d => some { st with temp_comp := st.temp_comp ++ [d] }
          else
            if hasEq line then
              some { st with temp_comp := st.temp_comp ++ (line.drop pos_of_op).take 2 }
            else
              some { st with temp_comp := st.temp_comp ++ (line.drop (pos_of_op - 1)).take 3 }
      else if pos_of_op = 0 then
        some { st with temp_comp := st.temp_comp ++ line.take 2 }
      else if c = '!' then
        match line.get? (pos_of_op + 1) with
        | none => none
        | some d => some { st with temp_comp := st.temp_comp ++ [d] }
      else
        some st
  else if c = ';' then
    if hasEq line then
      match findPos (fun x => x == ';') line with
      | none => none
      | some i => some { st with jmp := some ((line.drop (i + 1)).take 3) }
    else if hasOp line then
      match findPos (fun x => x == ';') line with
      | none => none
      | some i => some { st with jmp := some ((line.drop (i + 1)).take 3) }
    else
      match findPos (fun x => x == ';') line with
      | none => none
      | some i =>
        match i with
        | 0 => none
        | q + 1 =>
          match line.get? q with
          | none => none
          | some b =>
              some { st with temp_comp := st.temp_comp ++ [b],
                             jmp := some ((line.drop (i + 1)).take 3) }
  else
    some st

/-- The character loop of `parse_line` (src/main.rs:56-177).  `line` is the
whole line, `rest` the characters not yet visited.  The `@` and `(` cases
break out of the loop. -/
def parseGo (line : List Char) : List Char → PState → Option PState
  | [], st => some st
  | c :: rest, st =>
    if c = '@' then
      match line.get? 1 with
      | none => none
      | some c1 =>
        if isNumericChar c1 then some { st with ct := .ACommand, sym := some (line.drop 1) }
        else some { st with ct := .ACommand, sym := some (line.drop 1) }
    else if c = '(' then
      some { st with ct := .LCommand,
                     sym := some ((line.drop 1).takeWhile (fun x => !(x == ')'))) }
    else
      match parseCStep line { st with ct := CommandKind.CCommand } c with
      | none => none
      | some st2 => parseGo line rest st2

/-- Initial loop state of `parse_line`. -/
def initialPState : PState :=
  { ct := .ACommand, sym := none, des := none, temp_comp := [], jmp := none }

/-- The instruction parser `parse_line` (src/main.rs:44-190). -/
def parse_line (line : List Char) (line_number : Int) : Option ParsedLine :=
  match parseGo line line initialPState with
  | none => none
  | some st =>
      some { command_type := st.ct, symbol := st.sym, dest := st.des,
             comp := if st.temp_comp.isEmpty then none else some st.temp_comp,
             jump := st.jmp, line_number := line_number }

/-- The `ICommand` placeholder pushed for blank and comment lines. -/
def icommandLine : ParsedLine :=
  { command_type := .ICommand, symbol := none, dest := none, comp := none,
    jump := none, line_number := 0 }

/-- One iteration of the loop of `parse_each_line` (src/main.rs:240-256):
state is the running `line_number` and the vector built so far. -/
def parseEachStep (st : Int × List ParsedLine) (line : List Char) :
    Option (Int × List ParsedLine) :=
  match preprocess_line line with
  | some instr =>
    match parse_line instr (st.1 + 1) with
    | none => none
    | some pl =>
        some (if pl.command_type = .LCommand then st.1 + 1 - 1 else st.1 + 1,
              st.2 ++ [pl])
  | none => some (st.1, st.2 ++ [icommandLine])

/-- `parse_each_line` (src/main.rs:240-256); the input `contents.lines()` is
modelled as the list of lines. -/
def parse_each_line (contents : List (List Char)) : Option (List ParsedLine) :=
  (contents.foldlM parseEachStep (-1, [])).map (fun st => st.2)

/-- The symbol table `HashMap<Option<String>, String>`: association list,
newest binding first. -/
abbrev SymTable := List (Option (List Char) × List Char)

/-- Rust `HashMap::get`, returning the value of the most recent binding. -/
def getVal? (t : SymTable) (k : Option (List Char)) : Option (List Char) :=
  match t with
  | [] => none
  | (k1, v) :: rest => if k1 = k then some v else getVal? rest k

/-- Rust `HashMap::contains_key`. -/
def containsKey (t : SymTable) (k : Option (List Char)) : Bool :=
  (getVal? t k).isSome

/-- Rust `HashMap::insert` (observed only through `get`/`contains_key`). -/
def insertST (t : SymTable) (k : Option (List Char)) (v : List Char) : SymTable :=
  (k, v) :: t

/-- Rust `isize::to_string`. -/
def intStr (i : Int) : List Char := (toString i).data

/-- `populate_symbol_table` (src/main.rs:367-389). -/
def populate_symbol_table (label : ParsedLine) (table : SymTable) (last_address : Int) :
    SymTable × Int :=
  if containsKey table label.symbol ∧ label.command_type ≠ .LCommand then
    (table, last_address)
  else
    if label.command_type = .LCommand then
      (insertST table label.symbol (intStr label.line_number), last_address)
    else
      (insertST table label.symbol (intStr (last_address + 1)), last_address + 1)

/-- One iteration of the first loop of `first_pass` (labels only,
src/main.rs:413-422). -/
def passLabelsStep (st : SymTable × Int) (pl : ParsedLine) : SymTable × Int :=
  if pl.command_type ≠ .ICommand then
    if pl.command_type = .LCommand then populate_symbol_table pl st.1 st.2 else st
  else st

/-- One iteration of the second loop of `first_pass` (variables,
src/main.rs:425-443); `none` models the `unwrap` panics on an `ACommand`
with no symbol or an empty symbol. -/
def passVarsStep (st : SymTable × Int) (pl : ParsedLine) : Option (SymTable × Int) :=
  if pl.command_type ≠ .ICommand then
    if pl.command_type = .ACommand then
      match pl.symbol with
      | none => none
      | some s =>
        match s with
        | [] => none
        | c :: _ =>
          if !isNumericChar c then some (populate_symbol_table pl st.1 st.2)
          else some st
    else some st
  else some st

/-- `first_pass` (src/main.rs:400-445): the label loop, then the variable
loop, both starting from `last_ram_address = 15`. -/
def first_pass (parsed_lines : List ParsedLine) (symbol_table : SymTable) :
    Option SymTable :=
  (parsed_lines.foldlM passVarsStep
      (parsed_lines.foldl passLabelsStep (symbol_table, 15))).map (fun st => st.1)

/-- The `dest_map` table of `translate` (`none` key maps to `000`). -/
def dest_map : Option (List Char) → Option (List Char)
  | none => some "000".data
  | some s =>
    if s = "M".data then some "001".data
    else if s = "D".data then some "010".data
    else if s = "MD".data then some "011".data
    else if s = "A".data then some "100".data
    else if s = "AM".data then some "101".data
    else if s = "AD".data then some "110".data
    else if s = "AMD".data then some "111".data
    else none

/-- The `jump_map` table of `translate`. -/
def jump_map : Option (List Char) → Option (List Char)
  | none => some "000".data
  | some s =>
    if s = "JGT".data then some "001".data
    else if s = "JEQ".data then some "010".data
    else if s = "JGE".data then some "011".data
    else if s = "JLT".data then some "100".data
    else if s = "JNE".data then some "101".data
    else if s = "JLE".data then some "110".data
    else if s = "JMP".data then some "111".data
    else none

/-- The `comp_map` table of `translate` (no entry for the `none` key). -/
def comp_map : Option (List Char) → Option (List Char)
  | none => none
  | some s =>
    if s = "0".data then some "0101010".data
    else if s = "1".data then some "0111111".data
    else if s = "-1".data then some "0111010".data
    else if s = "D".data then some "0001100".data
    else if s = "A".data then some "0110000".data
    else if s = "M".data then some "1110000".data
    else if s = "!D".data then some "0001101".data
    else if s = "!A".data then some "0110001".data
    else if s = "!M".data then some "1110001".data
    else if s = "-D".data then some "0001111".data
    else if s = "-A".data then some "0110011".data
    else if s = "-M".data then some "1110011".data
    else if s = "D+1".data then some "0011111".data
    else if s = "A+1".data then some "0110111".data
    else if s = "M+1".data then some "1110111".data
    else if s = "D-1".data then some "0001110".data
    else if s = "A-1".data then some "0110010".data
    else if s = "M-1".data then some "1110010".data
    else if s = "D+A".data then some "0000010".data
    else if s = "D+M".data then some "1000010".data
    else if s = "D-A".data then some "0010011".data
    else if s = "D-M".data then some "1010011".data
    else if s = "A-D".data then some "0000111".data
    else if s = "M-D".data then some "1000111".data
    else if s = "D&A".data then some "0000000".data
    else if s = "D&M".data then some "1000000".data
    else if s = "D|A".data then some "0010101".data
    else if s = "D|M".data then some "1010101".data
    else none

/-- Little-endian binary digits, with explicit fuel so that the kernel can
evaluate the function; `natToBinRev` supplies enough fuel. -/
def natToBinRevAux : Nat → Nat → List Char
  | _, 0 => []
  | 0, _ + 1 => []
  | fuel + 1, m + 1 =>
      (if (m + 1) % 2 == 1 then '1' else '0') :: natToBinRevAux fuel ((m + 1) / 2)

/-- Little-endian binary digits of a natural number (empty for `0`). -/
def natToBinRev (n : Nat) : List Char := natToBinRevAux n n

/-- Rust `format!("{:b}", n)`: most-significant bit first, `"0"` for zero. -/
def binStr (n : Nat) : List Char :=
  if n = 0 then ['0'] else (natToBinRev n).reverse

/-- The zero-padding loop of `translate`: left-pad to width 16. -/
def padTo16 (l : List Char) : List Char :=
  List.replicate (16 - l.length) '0' ++ l

/-- Rust `str::parse::<u16>`: optional leading `+`, then decimal digits,
value at most `65535`. -/
def parseU16 (s : List Char) : Option Nat :=
  let t := match s with
           | '+' :: rest => rest
           | _ => s
  if t.isEmpty then none
  else if t.all (fun c => c.isDigit) then
    let v := t.foldl (fun acc c => acc * 10 + (c.toNat - '0'.toNat)) 0
    if v ≤ 65535 then some v else none
  else none

/-- The code generator `translate` (src/main.rs:258-365); `none` models the
`unwrap` panics (missing symbol, failed parse, unknown mnemonic). -/
def translate (instruction : ParsedLine) (symbol_table : SymTable) :
    Option (List Char) :=
  if instruction.command_type = .ACommand then
    match instruction.symbol with
    | none => none
    | some s =>
      match s with
      | [] => none
      | c :: _ =>
        if isNumericChar c then
          match parseU16 s with
          | none => none
          | some n => some (padTo16 (binStr n))
        else
          match getVal? symbol_table instruction.symbol with
          | none => none
          | some v =>
            match parseU16 v with
            | none => none
            | some n => some (padTo16 (binStr n))
  else
    match comp_map instruction.comp with
    | none => none
    | some comp_bits =>
      match dest_map instruction.dest with
      | none => none
      | some dest_bits =>
        match jump_map instruction.jump with
        | none => none
        | some jump_bits => some ("111".data ++ comp_bits ++ dest_bits ++ jump_bits)

/-- One iteration of `second_pass` (src/main.rs:447-467). -/
def secondPassStep (symbol_table : SymTable) (acc : List Char) (pl : ParsedLine) :
    Option (List Char) :=
  if pl.command_type ≠ .ICommand ∧ pl.command_type ≠ .LCommand then
    match translate pl symbol_table with
    | none => none
    | some w => some (if acc.isEmpty then acc ++ w else acc ++ '\n' :: w)
  else some acc

/-- `second_pass` (src/main.rs:447-467): translate every real instruction,
joining the words with a newline. -/
def second_pass (parsed_lines : List ParsedLine) (symbol_table : SymTable) :
    Option (List Char) :=
  parsed_lines.foldlM (secondPassStep symbol_table) []

/-- The pre-populated symbol table built in `main` (src/main.rs:481-508). -/
def initial_symbol_table : SymTable :=
  [ (some "SP".data, "0".data), (some "R0".data, "0".data),
    (some "LCL".data, "1".data), (some "R1".data, "1".data),
    (some "ARG".data, "2".data), (some "R2".data, "2".data),
    (some "THIS".data, "3".data), (some "R3".data, "3".data),
    (some "THAT".data, "4".data), (some "R4".data, "4".data),
    (some "R5".data, "5".data), (some "R6".data, "6".data),
    (some "R7".data, "7".data), (some "R8".data, "8".data),
    (some "R9".data, "9".data), (some "R10".data, "10".data),
    (some "R11".data, "11".data), (some "R12".data, "12".data),
    (some "R13".data, "13".data), (some "R14".data, "14".data),
    (some "R15".data, "15".data), (some "SCREEN".data, "16384".data),
    (some "KBD".data, "24576".data) ]

/-- The assembly pipeline of `main` (src/main.rs:469-517), output file
writing excluded: parse every line, run both resolution passes, translate. -/
def assemble (contents : List (List Char)) : Option (List Char) :=
  match parse_each_line contents with
  | none => none
  | some lines =>
    match first_pass lines initial_symbol_table with
    | none => none
    | some ft => second_pass lines ft

/-- An instruction that occupies a slot in instruction memory: neither a
blank/comment placeholder nor a label pseudo-instruction. -/
def isReal (pl : ParsedLine) : Bool :=
  pl.command_type ≠ .ICommand && pl.command_type ≠ .LCommand

/-- Number of real instructions in a list; the `address_index` of an
instruction is `realCount` of the instructions before it. -/
def realCount (l : List ParsedLine) : Nat := l.countP isReal

/-- Specification-side big-endian binary representation of width `k`:
character `j` is bit `k - 1 - j` of `n`. -/
def bitsBE (k n : Nat) : List Char :=
  (List.range k).map (fun j => if n / 2 ^ (k - 1 - j) % 2 = 1 then '1' else '0')

/-- Specification-side 16-bit binary representation: character `j` is bit
`15 - j` of `n`. -/
def bits16 (n : Nat) : List Char := bitsBE 16 n

/-- Characters that the C-command loop body leaves the state unchanged on. -/
def plainChar (c : Char) : Bool :=
  !(c == '@' || c == '(' || c == '=' || c == '+' || c == '&' || c == '|' ||
    c == '-' || c == '!' || c == ';')

/-- The label-and-variable example program from the specification. -/
def c2wContents : List (List Char) :=
  ["(LOOP)".data, "@i".data, "M=M+1".data, "@LOOP".data, "0;JMP".data]

/-- The parse of `(LOOP)`. -/
def c2wLab : ParsedLine :=
  { command_type := .LCommand, symbol := some "LOOP".data, dest := none,
    comp := none, jump := none, line_number := 0 }

/-- The parses of the lines following `(LOOP)`. -/
def c2wPost : List ParsedLine :=
  [ { command_type := .ACommand, symbol := some "i".data, dest := none,
      comp := none, jump := none, line_number := 0 },
    { command_type := .CCommand, symbol := none, dest := some "M".data,
      comp := some "M+1".data, jump := none, line_number := 1 },
    { command_type := .ACommand, symbol := some "LOOP".data, dest := none,
      comp := none, jump := none, line_number := 2 },
    { command_type := .CCommand, symbol := none, dest := none,
      comp := some "0".data, jump := some "JMP".data, line_number := 3 } ]

/-- The full parse of the example program. -/
def c2wLines : List ParsedLine := c2wLab :: c2wPost

/-- The symbol table produced by `first_pass` on the example program. -/
def c2wFt : SymTable :=
  (some "i".data, "16".data) :: (some "LOOP".data, "0".data) :: initial_symbol_table

/-! ## Lemmas about the symbol-table model -/

theorem getVal?_insert_self (t : SymTable) (k : Option (List Char)) (v : List Char) :
    getVal? (insertST t k v) k = some v := by
  simp [insertST, getVal?]

theorem getVal?_insert_ne (t : SymTable) (k k1 : Option (List Char)) (v : List Char)
    (h : k1 ≠ k) : getVal? (insertST t k v) k1 = getVal? t k1 := by
  simp only [insertST, getVal?]
  rw [if_neg (fun hh : k = k1 => h hh.symm)]

theorem containsKey_of_getVal? {t : SymTable} {k : Option (List Char)} {v : List Char}
    (h : getVal? t k = some v) : containsKey t k = true := by
  simp [containsKey, h]

/-! ## Lemmas about `findPos`, `take` and `drop` -/

theorem findPos_append (p : Char → Bool) (l1 l2 : List Char) (x : Char)
    (h1 : ∀ c ∈ l1, p c = false) (hx : p x = true) :
    findPos p (l1 ++ x :: l2) = some l1.length := by
  induction l1 with
  | nil => simp [findPos, hx]
  | cons c rest ih =>
    have hc : p c = false := h1 c (by simp)
    simp [findPos, hc, ih (fun d hd => h1 d (by simp [hd]))]

theorem drop_append_cons (l1 l2 : List Char) (x : Char) :
    (l1 ++ x :: l2).drop (l1.length + 1) = l2 := by
  have h : l1 ++ x :: l2 = (l1 ++ [x]) ++ l2 := by simp
  have h2 : l1.length + 1 = (l1 ++ [x]).length := by simp
  rw [h, h2, List.drop_left]

/-! ## Lemmas about the preprocessor -/

theorem hasDoubleSlash_append (a r : List Char) :
    hasDoubleSlash (a ++ '/' :: '/' :: r) = true := by
  induction a with
  | nil => simp [hasDoubleSlash]
  | cons c rest ih => simp [hasDoubleSlash, ih]

theorem startsWithSlashSlash_eq_false (l : List Char)
    (h : ∀ x, l.head? = some x → x ≠ '/') : startsWithSlashSlash l = false := by
  match l with
  | [] => rfl
  | [c] => rfl
  | c1 :: c2 :: t =>
    have hc1 : c1 ≠ '/' := h c1 rfl
    simp [startsWithSlashSlash, hc1]

theorem preprocess_midline (line a rest : List Char) (c : Char)
    (htrim : trimChars line = a ++ c :: '/' :: '/' :: rest)
    (ha : '/' ∉ a) (hc : c ≠ '/') :
    preprocess_line line = some (removeWs a) := by
  have hsw : startsWithSlashSlash (a ++ c :: '/' :: '/' :: rest) = false := by
    apply startsWithSlashSlash_eq_false
    intro x hx
    match a with
    | [] =>
      simp at hx
      exact hx ▸ hc
    | a0 :: a1 =>
      simp at hx
      exact fun hx0 => ha (by simp [hx ▸ hx0])
  have hfind : findPos (fun x => x == '/') (a ++ c :: '/' :: '/' :: rest)
      = some (a.length + 1) := by
    have h1 : (a ++ [c]) ++ '/' :: '/' :: rest = a ++ c :: '/' :: '/' :: rest := by simp
    have h2 : findPos (fun x => x == '/') ((a ++ [c]) ++ '/' :: '/' :: rest)
        = some (a ++ [c]).length := by
      apply findPos_append
      · intro d hd
        rcases List.mem_append.mp hd with hda | hdc
        · exact beq_eq_false_iff_ne.mpr (fun hdd => ha (hdd ▸ hda))
        · simp at hdc
          exact beq_eq_false_iff_ne.mpr (hdc ▸ hc)
      · simp
    rw [h1] at h2
    simpa using h2
  have htake : (a ++ c :: '/' :: '/' :: rest).take (a.length + 1 - 1) = a := by
    simp only [Nat.add_sub_cancel]
    exact List.take_left a (c :: '/' :: '/' :: rest)
  have hds : hasDoubleSlash (a ++ c :: '/' :: '/' :: rest) = true := by
    have h2 := hasDoubleSlash_append (a ++ [c]) rest
    simpa using h2
  simp only [preprocess_line, htrim]
  rw [hds, if_pos rfl, hsw, hfind]
  simp [htake]

theorem preprocess_nocomment (line : List Char)
    (h : hasDoubleSlash (trimChars line) = false) :
    preprocess_line line = none ↔ removeWs line = [] := by
  simp only [preprocess_line]
  rw [h]
  simp only [Bool.false_eq_true, if_false]
  by_cases he : (removeWs line).isEmpty
  · simp [he, List.isEmpty_iff.mp he]
  · simp only [he, if_false]
    constructor
    · intro hh; exact absurd hh (by simp)
    · intro hh; exact absurd hh (by simpa [List.isEmpty_iff] using he)

theorem preprocess_purecomment (line : List Char)
    (h : startsWithSlashSlash (trimChars line) = true) :
    preprocess_line line = none := by
  have hds : hasDoubleSlash (trimChars line) = true := by
    match hl : trimChars line with
    | [] => rw [hl] at h; simp [startsWithSlashSlash] at h
    | [c] => rw [hl] at h; simp [startsWithSlashSlash] at h
    | c1 :: c2 :: t =>
      rw [hl] at h
      simp [startsWithSlashSlash] at h
      simp [hasDoubleSlash, h.1, h.2]
  simp only [preprocess_line]
  rw [hds, if_pos rfl, h]
  simp

theorem noWs_of_preprocess (line s : List Char) (h : preprocess_line line = some s) :
    ∀ c ∈ s, isRustWhitespace c = false := by
  simp only [preprocess_line] at h
  by_cases hds : hasDoubleSlash (trimChars line)
  · rw [hds, if_pos rfl] at h
    by_cases hsw : startsWithSlashSlash (trimChars line)
    · rw [hsw] at h; simp at h
    · rw [if_neg (by simpa using hsw)] at h
      match hf : findPos (fun x => x == '/') (trimChars line) with
      | none => rw [hf] at h; simp at h
      | some i =>
        rw [hf] at h
        simp only [Option.some_inj] at h
        intro c hc
        rw [← h] at hc
        have := List.mem_filter.mp hc
        simpa using this.2
  · rw [if_neg (by simpa using hds)] at h
    by_cases he : (removeWs line).isEmpty
    · simp [he] at h
    · rw [if_neg (by simpa using he)] at h  -- hmm
      simp only [Option.some_inj] at h
      intro c hc
      rw [← h] at hc
      have := List.mem_filter.mp hc
      simpa using this.2

theorem dropWhile_of_noWs (p : Char → Bool) (l : List Char)
    (h : ∀ c ∈ l, p c = false) : l.dropWhile p = l := by
  match l with
  | [] => rfl
  | c :: rest => simp [List.dropWhile, h c (by simp)]

theorem trimChars_of_noWs (l : List Char)
    (h : ∀ c ∈ l, isRustWhitespace c = false) : trimChars l = l := by
  unfold trimChars
  rw [dropWhile_of_noWs _ _ h,
      dropWhile_of_noWs _ _ (fun c hc => h c (List.mem_reverse.mp hc)),
      List.reverse_reverse]

theorem removeWs_of_noWs (l : List Char)
    (h : ∀ c ∈ l, isRustWhitespace c = false) : removeWs l = l := by
  apply List.filter_eq_self.mpr
  intro c hc
  simp [h c hc]

/-! ## Lemmas about the binary representation -/

theorem natToBinRevAux_congr : ∀ f1 f2 n, n ≤ f1 → n ≤ f2 →
    natToBinRevAux f1 n = natToBinRevAux f2 n := by
  intro f1
  induction f1 with
  | zero =>
    intro f2 n h1 _
    have hn : n = 0 := Nat.le_zero.mp h1
    subst hn
    cases f2 <;> rfl
  | succ f ih =>
    intro f2 n h1 h2
    cases n with
    | zero => cases f2 <;> rfl
    | succ m =>
      cases f2 with
      | zero => omega
      | succ f2p =>
        simp only [natToBinRevAux]
        have hm : (m + 1) / 2 ≤ m := by omega
        rw [ih f2p ((m + 1) / 2) (by omega) (by omega)]

theorem natToBinRev_succ (m : Nat) :
    natToBinRev (m + 1) =
      (if (m + 1) % 2 == 1 then '1' else '0') :: natToBinRev ((m + 1) / 2) := by
  show natToBinRevAux (m + 1) (m + 1) = _
  simp only [natToBinRevAux]
  have hm : (m + 1) / 2 ≤ m := by omega
  rw [natToBinRevAux_congr m ((m + 1) / 2) ((m + 1) / 2) hm (le_refl _)]
  rfl

theorem bitsBE_zero (k : Nat) : bitsBE k 0 = List.replicate k '0' := by
  have h : bitsBE k 0 = (List.range k).map (fun _ => '0') := by
    apply List.map_congr_left
    intro j _
    simp
  rw [h, List.map_const', List.length_range]

theorem bitsBE_succ (k n : Nat) :
    bitsBE (k + 1) n = bitsBE k (n / 2) ++ [if n % 2 = 1 then '1' else '0'] := by
  rw [bitsBE, bitsBE, List.range_succ, List.map_append]
  congr 1
  · apply List.map_congr_left
    intro j hj
    have hjk : j < k := List.mem_range.mp hj
    have he : k + 1 - 1 - j = (k - 1 - j) + 1 := by omega
    rw [he, pow_succ, Nat.mul_comm, ← Nat.div_div_eq_div_mul]
  · simp

theorem padBin (k : Nat) : ∀ n, n < 2 ^ k →
    List.replicate (k - (natToBinRev n).length) '0' ++ (natToBinRev n).reverse
      = bitsBE k n := by
  induction k with
  | zero =>
    intro n hn
    interval_cases n
    rfl
  | succ kp ih =>
    intro n hn
    match n with
    | 0 =>
      show List.replicate (kp + 1 - 0) '0' ++ [] = _
      rw [bitsBE_zero]
      simp
    | m + 1 =>
      rw [natToBinRev_succ]
      have hlen : ((if (m + 1) % 2 == 1 then '1' else '0') :: natToBinRev ((m + 1) / 2)).length
          = (natToBinRev ((m + 1) / 2)).length + 1 := by simp
      rw [hlen, List.reverse_cons, bitsBE_succ]
      have hd2 : (m + 1) / 2 < 2 ^ kp := by
        rw [Nat.div_lt_iff_lt_mul (by omega : (0:Nat) < 2)]
        have hp : 2 ^ (kp + 1) = 2 ^ kp * 2 := pow_succ 2 kp
        omega
      have hsub : kp + 1 - ((natToBinRev ((m + 1) / 2)).length + 1)
          = kp - (natToBinRev ((m + 1) / 2)).length := by omega
      rw [hsub, ← List.append_assoc, ih ((m + 1) / 2) hd2]
      congr 1
      simp only [beq_iff_eq]

theorem padTo16_binStr (n : Nat) (h : n < 65536) : padTo16 (binStr n) = bits16 n := by
  match n with
  | 0 =>
    show padTo16 ['0'] = _
    rw [bits16, bitsBE_zero]
    decide
  | m + 1 =>
    have hne : m + 1 ≠ 0 := by omega
    rw [binStr, if_neg hne, padTo16, List.length_reverse, bits16]
    exact padBin 16 (m + 1) (by omega)

theorem bits16_length (n : Nat) : (bits16 n).length = 16 := by
  simp [bits16, bitsBE]

theorem bits16_head (n : Nat) :
    (bits16 n).head? = some (if n / 32768 % 2 = 1 then '1' else '0') := by
  rw [bits16, bitsBE, List.range_succ_eq_map]
  rfl

theorem bits16_head_low (n : Nat) (h : n < 32768) : (bits16 n).head? = some '0' := by
  rw [bits16_head]
  have hz : n / 32768 = 0 := Nat.div_eq_of_lt h
  rw [hz]
  rfl

theorem bits16_head_high (n : Nat) (h1 : 32768 ≤ n) (h2 : n < 65536) :
    (bits16 n).head? = some '1' := by
  rw [bits16_head]
  have hz : n / 32768 = 1 := by omega
  rw [hz]
  rfl

theorem parseU16_le (s : List Char) (n : Nat) (h : parseU16 s = some n) : n ≤ 65535 := by
  simp only [parseU16] at h
  split at h
  · exact absurd h (by simp)
  · split at h
    · split at h
      · simp only [Option.some_inj] at h
        omega
      · exact absurd h (by simp)
    · exact absurd h (by simp)

/-! ## Lemmas about the code generator on numeric symbols -/

theorem translate_numeric (pl : ParsedLine) (t : SymTable) (c : Char) (cs : List Char)
    (hA : pl.command_type = .ACommand) (hsym : pl.symbol = some (c :: cs))
    (hd : isNumericChar c = true) :
    translate pl t = (parseU16 (c :: cs)).map (fun n => padTo16 (binStr n)) := by
  match hp : parseU16 (c :: cs) with
  | none => simp [translate, hA, hsym, hd, hp]
  | some n => simp [translate, hA, hsym, hd, hp]

theorem passVarsStep_numeric (st : SymTable × Int) (pl : ParsedLine) (c : Char)
    (cs : List Char) (hA : pl.command_type = .ACommand)
    (hsym : pl.symbol = some (c :: cs)) (hd : isNumericChar c = true) :
    passVarsStep st pl = some st := by
  simp [passVarsStep, hA, hsym, hd]

/-! ## Lemmas about the two resolution passes -/

theorem populate_noop (pl : ParsedLine) (t : SymTable) (a : Int)
    (hL : pl.command_type ≠ .LCommand) (hc : containsKey t pl.symbol = true) :
    populate_symbol_table pl t a = (t, a) := by
  rw [populate_symbol_table, if_pos ⟨hc, hL⟩]

theorem populate_label (pl : ParsedLine) (t : SymTable) (a : Int)
    (hL : pl.command_type = .LCommand) :
    populate_symbol_table pl t a =
      (insertST t pl.symbol (intStr pl.line_number), a) := by
  rw [populate_symbol_table, if_neg (fun hh => hh.2 hL), if_pos hL]

theorem populate_var (pl : ParsedLine) (t : SymTable) (a : Int)
    (hL : pl.command_type ≠ .LCommand) (hc : containsKey t pl.symbol = false) :
    populate_symbol_table pl t a =
      (insertST t pl.symbol (intStr (a + 1)), a + 1) := by
  rw [populate_symbol_table, if_neg (fun hh => by rw [hc] at hh; exact absurd hh.1 (by simp)),
      if_neg hL]

theorem passLabelsStep_of_ne_L (st : SymTable × Int) (pl : ParsedLine)
    (h : pl.command_type ≠ .LCommand) : passLabelsStep st pl = st := by
  simp [passLabelsStep, h]

theorem passLabelsStep_of_L (st : SymTable × Int) (pl : ParsedLine)
    (h : pl.command_type = .LCommand) :
    passLabelsStep st pl = (insertST st.1 pl.symbol (intStr pl.line_number), st.2) := by
  rw [passLabelsStep, if_pos (by rw [h]; exact fun hh => nomatch hh), if_pos h,
      populate_label pl st.1 st.2 h]

theorem passLabels_preserve (lines : List ParsedLine) (k : Option (List Char))
    (h : ∀ pl ∈ lines, pl.command_type = .LCommand → pl.symbol ≠ k) :
    ∀ st : SymTable × Int,
      getVal? (List.foldl passLabelsStep st lines).1 k = getVal? st.1 k := by
  induction lines with
  | nil => intro st; rfl
  | cons pl rest ih =>
    intro st
    rw [List.foldl_cons]
    by_cases hL : pl.command_type = .LCommand
    · rw [ih (fun q hq => h q (by simp [hq])), passLabelsStep_of_L st pl hL]
      exact getVal?_insert_ne st.1 pl.symbol k (intStr pl.line_number)
        (fun hh => (h pl (by simp) hL) hh.symm)
    · rw [passLabelsStep_of_ne_L st pl hL, ih (fun q hq => h q (by simp [hq]))]

theorem passLabels_snd (lines : List ParsedLine) :
    ∀ st : SymTable × Int, (List.foldl passLabelsStep st lines).2 = st.2 := by
  induction lines with
  | nil => intro st; rfl
  | cons pl rest ih =>
    intro st
    rw [List.foldl_cons]
    by_cases hL : pl.command_type = .LCommand
    · rw [ih, passLabelsStep_of_L st pl hL]
    · rw [passLabelsStep_of_ne_L st pl hL, ih]

theorem passLabels_unique (pre post : List ParsedLine) (lab : ParsedLine)
    (name : List Char) (st : SymTable × Int)
    (hL : lab.command_type = .LCommand) (hsym : lab.symbol = some name)
    (hpost : ∀ pl ∈ post, pl.command_type = .LCommand → pl.symbol ≠ some name) :
    getVal? (List.foldl passLabelsStep st (pre ++ lab :: post)).1 (some name)
      = some (intStr lab.line_number) := by
  rw [List.foldl_append, List.foldl_cons, passLabels_preserve post (some name) hpost,
      passLabelsStep_of_L _ lab hL, hsym]
  exact getVal?_insert_self _ _ _

theorem passVarsStep_cases (st : SymTable × Int) (pl : ParsedLine)
    (st1 : SymTable × Int) (h : passVarsStep st pl = some st1) :
    st1 = st ∨ (pl.command_type = .ACommand ∧
                (∃ c cs, pl.symbol = some (c :: cs) ∧ isNumericChar c = false) ∧
                st1 = populate_symbol_table pl st.1 st.2) := by
  rw [passVarsStep] at h
  split at h
  · split at h
    · split at h
      · exact absurd h (by simp)
      · split at h
        · exact absurd h (by simp)
        · split at h
          · right
            rename_i hdig
            refine ⟨by assumption, ⟨_, _, by assumption, by simpa using hdig⟩, ?_⟩
            simp only [Option.some_inj] at h
            exact h.symm
          · left
            simp only [Option.some_inj] at h
            exact h.symm
    · left
      simp only [Option.some_inj] at h
      exact h.symm
  · left
    simp only [Option.some_inj] at h
    exact h.symm

theorem passVars_preserve (lines : List ParsedLine) (k : Option (List Char))
    (v : List Char) :
    ∀ st st' : SymTable × Int, List.foldlM passVarsStep st lines = some st' →
      getVal? st.1 k = some v → getVal? st'.1 k = some v := by
  induction lines with
  | nil =>
    intro st st' hf hg
    simp only [List.foldlM_nil] at hf
    cases hf
    exact hg
  | cons pl rest ih =>
    intro st st' hf hg
    rw [List.foldlM_cons] at hf
    rcases Option.bind_eq_some.mp hf with ⟨st1, hstep, hrest⟩
    apply ih st1 st' hrest
    rcases passVarsStep_cases st pl st1 hstep with hid | ⟨hA, _, hpop⟩
    · rw [hid]
      exact hg
    · subst hpop
      have hAL : pl.command_type ≠ .LCommand := by rw [hA]; exact fun hh => nomatch hh
      by_cases hck : containsKey st.1 pl.symbol
      · rw [populate_noop pl st.1 st.2 hAL hck]
        exact hg
      · have hne : k ≠ pl.symbol := by
          intro hkk
          rw [← hkk] at hck
          exact hck (containsKey_of_getVal? hg)
        rw [populate_var pl st.1 st.2 hAL (by simpa using hck)]
        rw [getVal?_insert_ne st.1 pl.symbol k _ hne]
        exact hg

/-! ## Line numbers computed by `parse_each_line` -/

theorem parseCStep_ct (line : List Char) (st : PState) (c : Char) (st2 : PState)
    (h : parseCStep line st c = some st2) : st2.ct = st.ct := by
  rw [parseCStep] at h
  repeat' split at h
  all_goals
    first
      | (simp only [Option.some_inj] at h
         rw [← h])
      | exact absurd h (by simp)

theorem parseGo_ct (line : List Char) :
    ∀ rest st st', parseGo line rest st = some st' →
      st'.ct = st.ct ∨ st'.ct = .ACommand ∨ st'.ct = .LCommand ∨ st'.ct = .CCommand := by
  intro rest
  induction rest with
  | nil =>
    intro st st' h
    simp only [parseGo, Option.some_inj] at h
    left
    rw [← h]
  | cons c rest ih =>
    intro st st' h
    rw [parseGo] at h
    split at h
    · split at h
      · exact absurd h (by simp)
      · split at h <;>
        · simp only [Option.some_inj] at h
          rw [← h]
          right; left; rfl
    · split at h
      · simp only [Option.some_inj] at h
        rw [← h]
        right; right; left; rfl
      · split at h
        · exact absurd h (by simp)
        · rename_i st2 hstep
          rcases ih st2 st' h with h1 | h1 | h1 | h1
          · rw [h1, parseCStep_ct line _ c st2 hstep]
            right; right; right; rfl
          · right; left; exact h1
          · right; right; left; exact h1
          · right; right; right; exact h1

theorem parse_line_ne_I (l : List Char) (n : Int) (pl : ParsedLine)
    (h : parse_line l n = some pl) : pl.command_type ≠ .ICommand := by
  rw [parse_line] at h
  split at h
  · exact absurd h (by simp)
  · rename_i st hgo
    simp only [Option.some_inj] at h
    rcases parseGo_ct l l initialPState st hgo with h1 | h1 | h1 | h1 <;>
      (rw [← h]
       show st.ct ≠ .ICommand
       rw [h1]
       decide)

/-- The positional invariant of `parse_each_line`: every non-`ICommand`
entry records the number of real instructions strictly before it. -/
def LNinv (l : List ParsedLine) : Prop :=
  ∀ pre pl post, l = pre ++ pl :: post → pl.command_type ≠ .ICommand →
    pl.line_number = (realCount pre : Int)

theorem LNinv_nil : LNinv [] := by
  intro pre pl post heq
  exact absurd heq.symm (by simp)

theorem LNinv_append (l : List ParsedLine) (x : ParsedLine) (h : LNinv l)
    (hx : x.command_type ≠ .ICommand → x.line_number = (realCount l : Int)) :
    LNinv (l ++ [x]) := by
  intro pre pl post heq hne
  rcases List.eq_nil_or_concat post with hpost | ⟨post1, y, hpost⟩
  · subst hpost
    have hrev := congrArg List.reverse heq
    simp only [List.reverse_append, List.reverse_cons, List.reverse_nil,
      List.nil_append, List.singleton_append, List.cons.injEq] at hrev
    rcases hrev with ⟨hxy, hpre⟩
    have hpre2 : pre = l := by
      have := congrArg List.reverse hpre
      simpa using this.symm
    rw [← hxy, hpre2]
    exact hx (by rw [hxy]; exact hne)
  · subst hpost
    have heq2 : l ++ [x] = (pre ++ pl :: post1) ++ [y] := by
      rw [heq]
      simp
    have hrev := congrArg List.reverse heq2
    simp only [List.reverse_append, List.reverse_cons, List.reverse_nil,
      List.nil_append, List.singleton_append, List.cons.injEq] at hrev
    rcases hrev with ⟨_, hrest⟩
    have hl : pre ++ pl :: post1 = l := by
      have := congrArg List.reverse hrest
      simpa using this.symm
    exact h pre pl post1 hl.symm hne

theorem icommand_not_real : isReal icommandLine = false := by decide

theorem realCount_append_I :
    ∀ l : List ParsedLine, realCount (l ++ [icommandLine]) = realCount l := by
  intro l
  rw [realCount, List.countP_append, realCount]
  simp [List.countP_cons, icommand_not_real]

theorem realCount_append_real (l : List ParsedLine) (pl : ParsedLine)
    (h : isReal pl = true) : realCount (l ++ [pl]) = realCount l + 1 := by
  rw [realCount, List.countP_append, realCount]
  simp [List.countP_cons, h]

theorem realCount_append_L (l : List ParsedLine) (pl : ParsedLine)
    (h : pl.command_type = .LCommand) : realCount (l ++ [pl]) = realCount l := by
  rw [realCount, List.countP_append, realCount]
  have hr : isReal pl = false := by simp [isReal, h]
  simp [List.countP_cons, hr]

theorem parseEach_inv (contents : List (List Char)) :
    ∀ st st' : Int × List ParsedLine,
      List.foldlM parseEachStep st contents = some st' →
      st.1 = (realCount st.2 : Int) - 1 → LNinv st.2 →
      st'.1 = (realCount st'.2 : Int) - 1 ∧ LNinv st'.2 := by
  induction contents with
  | nil =>
    intro st st' hf h1 h2
    simp only [List.foldlM_nil] at hf
    cases hf
    exact ⟨h1, h2⟩
  | cons line rest ih =>
    intro st st' hf h1 h2
    rw [List.foldlM_cons] at hf
    rcases Option.bind_eq_some.mp hf with ⟨st1, hstep, hrest⟩
    rw [parseEachStep] at hstep
    split at hstep
    · rename_i instr hpre
      split at hstep
      · exact absurd hstep (by simp)
      · rename_i pl hpl
        simp only [Option.some_inj] at hstep
        have hplI : pl.command_type ≠ .ICommand := parse_line_ne_I instr (st.1 + 1) pl hpl
        have hln : pl.line_number = st.1 + 1 := by
          rw [parse_line] at hpl
          split at hpl
          · exact absurd hpl (by simp)
          · simp only [Option.some_inj] at hpl
            rw [← hpl]
        apply ih st1 st' hrest
        · rw [← hstep]
          by_cases hL : pl.command_type = .LCommand
          · rw [if_pos hL]
            simp only []
            rw [realCount_append_L st.2 pl hL]
            omega
          · rw [if_neg hL]
            simp only []
            have hreal : isReal pl = true := by
              simp [isReal, hplI, hL]
            rw [realCount_append_real st.2 pl hreal]
            push_cast
            omega
        · rw [← hstep]
          simp only []
          apply LNinv_append st.2 pl h2
          intro _
          rw [hln, h1]
          omega
    · simp only [Option.some_inj] at hstep
      apply ih st1 st' hrest
      · rw [← hstep]
        simp only []
        rw [realCount_append_I st.2]
        exact h1
      · rw [← hstep]
        simp only []
        apply LNinv_append st.2 icommandLine h2
        intro hI
        exact absurd rfl hI

theorem parse_each_line_lineNumber (contents : List (List Char))
    (lines : List ParsedLine) (h : parse_each_line contents = some lines) :
    ∀ pre pl post, lines = pre ++ pl :: post → pl.command_type ≠ .ICommand →
      pl.line_number = (realCount pre : Int) := by
  rw [parse_each_line] at h
  match hf : List.foldlM parseEachStep ((-1 : Int), ([] : List ParsedLine)) contents with
  | none => rw [hf] at h; exact absurd h (by simp)
  | some st' =>
    rw [hf] at h
    simp only [Option.map_some', Option.some_inj] at h
    have hinv := parseEach_inv contents ((-1 : Int), ([] : List ParsedLine)) st' hf
      (by simp [realCount]) LNinv_nil
    rw [← h]
    exact hinv.2

theorem passVars_prefix_noop (vpre : List ParsedLine) (T : SymTable) (a : Int)
    (h : ∀ q ∈ vpre, q.command_type = .ACommand → ∀ c cs, q.symbol = some (c :: cs) →
         isNumericChar c = false → containsKey T (some (c :: cs)) = true) :
    ∀ st', List.foldlM passVarsStep (T, a) vpre = some st' → st' = (T, a) := by
  induction vpre with
  | nil =>
    intro st' hf
    simp only [List.foldlM_nil, Option.pure_def, Option.some_inj] at hf
    exact hf.symm
  | cons q rest ih =>
    intro st' hf
    rw [List.foldlM_cons] at hf
    rcases Option.bind_eq_some.mp hf with ⟨st1, hstep, hrest⟩
    have hst1 : st1 = (T, a) := by
      rcases passVarsStep_cases (T, a) q st1 hstep with hid | ⟨hA, ⟨c, cs, hsym, hdig⟩, hpop⟩
      · exact hid
      · have hck : containsKey T q.symbol = true := by
          rw [hsym]
          exact h q (by simp) hA c cs hsym hdig
        rw [hpop]
        exact populate_noop q T a (by rw [hA]; exact fun hh => nomatch hh) hck
    subst hst1
    exact ih (fun p hp => h p (by simp [hp])) st' hrest

theorem first_pass_eq (lines : List ParsedLine) (t0 ft : SymTable)
    (h : first_pass lines t0 = some ft) :
    ∃ p : SymTable × Int,
      List.foldlM passVarsStep (List.foldl passLabelsStep (t0, 15) lines) lines = some p
      ∧ p.1 = ft := by
  rw [first_pass] at h
  match hf : List.foldlM passVarsStep (List.foldl passLabelsStep (t0, 15) lines) lines with
  | none => rw [hf] at h; exact absurd h (by simp)
  | some p =>
    rw [hf] at h
    simp only [Option.map_some', Option.some_inj] at h
    exact ⟨p, rfl, h⟩

/-! ## Lemmas about the jump and computation fields of the parser -/

theorem parseCStep_jmp_of_ne_semi (line : List Char) (st : PState) (c : Char)
    (st2 : PState) (h : parseCStep line st c = some st2) (hc : c ≠ ';') :
    st2.jmp = st.jmp := by
  rw [parseCStep] at h
  repeat' split at h
  all_goals
    first
      | exact absurd (by assumption) hc
      | (simp only [Option.some_inj] at h
         rw [← h])
      | exact absurd h (by simp)

theorem parseCStep_jmp_semi (line : List Char) (st st2 : PState) (i0 : Nat)
    (hfind : findPos (fun x => x == ';') line = some i0)
    (h : parseCStep line st ';' = some st2) :
    st2.jmp = some ((line.drop (i0 + 1)).take 3) := by
  rw [parseCStep, if_neg (by decide : ¬(';' : Char) = '='),
      if_neg (by decide : ¬opBinPred ';' = true),
      if_neg (by decide : ¬negPred ';' = true),
      if_pos rfl, hfind] at h
  repeat' split at h
  all_goals
    first
      | (simp only [Option.some_inj] at *
         subst_vars
         rfl)
      | exact absurd h (by simp)

theorem parseCStep_plain (line : List Char) (st : PState) (c : Char)
    (h : plainChar c = true) : parseCStep line st c = some st := by
  simp only [plainChar, Bool.not_eq_true', Bool.or_eq_false_iff, beq_eq_false_iff_ne] at h
  obtain ⟨⟨⟨⟨⟨⟨⟨⟨h1, h2⟩, h3⟩, h4⟩, h5⟩, h6⟩, h7⟩, h8⟩, h9⟩ := h
  rw [parseCStep, if_neg h3,
      if_neg (by simp [opBinPred, h4, h5, h6]),
      if_neg (by simp [negPred, h7, h8]),
      if_neg h9]

theorem parseCStep_semi_capture (line : List Char) (st st2 : PState) (q : Nat) (b : Char)
    (hfind : findPos (fun x => x == ';') line = some (q + 1))
    (hEq : hasEq line = false) (hOp : hasOp line = false)
    (hget : line.get? q = some b)
    (h : parseCStep line st ';' = some st2) :
    st2 = { st with temp_comp := st.temp_comp ++ [b],
                    jmp := some ((line.drop (q + 1 + 1)).take 3) } := by
  rw [parseCStep, if_neg (by decide : ¬(';' : Char) = '='),
      if_neg (by decide : ¬opBinPred ';' = true),
      if_neg (by decide : ¬negPred ';' = true),
      if_pos rfl, hEq, hOp] at h
  simp only [Bool.false_eq_true, if_false, hfind, hget, Option.some_inj] at h
  exact h.symm

theorem parseCStep_semi_zero (line : List Char) (st : PState)
    (hfind : findPos (fun x => x == ';') line = some 0)
    (hEq : hasEq line = false) (hOp : hasOp line = false) :
    parseCStep line st ';' = none := by
  rw [parseCStep, if_neg (by decide : ¬(';' : Char) = '='),
      if_neg (by decide : ¬opBinPred ';' = true),
      if_neg (by decide : ¬negPred ';' = true),
      if_pos rfl, hEq, hOp]
  simp [hfind]

theorem parseGo_jump (line : List Char) (i0 : Nat)
    (hfind : findPos (fun x => x == ';') line = some i0) :
    ∀ rest (st st' : PState), '@' ∉ rest → '(' ∉ rest →
      parseGo line rest st = some st' →
      st'.jmp = if rest.any (fun c => c == ';') then some ((line.drop (i0 + 1)).take 3)
                else st.jmp := by
  intro rest
  induction rest with
  | nil =>
    intro st st' _ _ h
    simp only [parseGo, Option.some_inj] at h
    rw [← h]
    rfl
  | cons c rest ih =>
    intro st st' hat hpar h
    have hca : c ≠ '@' := fun hh => hat (by simp [hh])
    have hcp : c ≠ '(' := fun hh => hpar (by simp [hh])
    rw [parseGo, if_neg hca, if_neg hcp] at h
    match hstep : parseCStep line { st with ct := CommandKind.CCommand } c with
    | none => rw [hstep] at h; exact absurd h (by simp)
    | some st2 =>
      rw [hstep] at h
      have hih := ih st2 st' (fun hh => hat (by simp [hh]))
        (fun hh => hpar (by simp [hh])) h
      by_cases hc : c = ';'
      · subst hc
        have hj2 : st2.jmp = some ((line.drop (i0 + 1)).take 3) :=
          parseCStep_jmp_semi line _ st2 i0 hfind hstep
        rw [hih, hj2]
        simp only [List.any_cons]
        split <;> rfl
      · have hj2 : st2.jmp = st.jmp :=
          parseCStep_jmp_of_ne_semi line { st with ct := CommandKind.CCommand } c st2
            hstep hc
        rw [hih, hj2]
        simp only [List.any_cons, beq_eq_false_iff_ne.mpr hc, Bool.false_or]

theorem parseGo_temp (line : List Char) (q : Nat) (b : Char)
    (hfind : findPos (fun x => x == ';') line = some (q + 1))
    (hEq : hasEq line = false) (hOp : hasOp line = false)
    (hget : line.get? q = some b) :
    ∀ rest (st st' : PState), (∀ c ∈ rest, plainChar c = true ∨ c = ';') →
      List.countP (fun c => c == ';') rest ≤ 1 →
      parseGo line rest st = some st' →
      st'.temp_comp = st.temp_comp ++ (if rest.any (fun c => c == ';') then [b] else []) := by
  intro rest
  induction rest with
  | nil =>
    intro st st' _ _ h
    simp only [parseGo, Option.some_inj] at h
    rw [← h]
    simp
  | cons c rest ih =>
    intro st st' hch hcount h
    have hcor : plainChar c = true ∨ c = ';' := hch c (by simp)
    have hca : c ≠ '@' := by
      rcases hcor with hpl | hsemi
      · simp only [plainChar, Bool.not_eq_true', Bool.or_eq_false_iff,
          beq_eq_false_iff_ne] at hpl
        exact hpl.1.1.1.1.1.1.1.1
      · rw [hsemi]; decide
    have hcp : c ≠ '(' := by
      rcases hcor with hpl | hsemi
      · simp only [plainChar, Bool.not_eq_true', Bool.or_eq_false_iff,
          beq_eq_false_iff_ne] at hpl
        exact hpl.1.1.1.1.1.1.1.2
      · rw [hsemi]; decide
    rw [parseGo, if_neg hca, if_neg hcp] at h
    match hstep : parseCStep line { st with ct := CommandKind.CCommand } c with
    | none => rw [hstep] at h; exact absurd h (by simp)
    | some st2 =>
      rw [hstep] at h
      rcases hcor with hpl | hsemi
      · have hplain := parseCStep_plain line { st with ct := CommandKind.CCommand } c hpl
        rw [hplain, Option.some_inj] at hstep
        have hih := ih st2 st' (fun d hd => hch d (by simp [hd]))
          (le_trans (by simp [List.countP_cons]) hcount) h
        rw [hih, ← hstep]
        have hcs : (c == ';') = false := by
          simp only [plainChar, Bool.not_eq_true', Bool.or_eq_false_iff,
            beq_eq_false_iff_ne] at hpl
          exact beq_eq_false_iff_ne.mpr hpl.2
        simp only [List.any_cons, hcs, Bool.false_or]
      · subst hsemi
        have hcap := parseCStep_semi_capture line _ st2 q b hfind hEq hOp hget hstep
        have hcz : List.countP (fun c => c == ';') rest = 0 := by
          rw [List.countP_cons] at hcount
          rw [if_pos (by decide : ((';' : Char) == ';') = true)] at hcount
          omega
        have hany : rest.any (fun c => c == ';') = false := by
          rw [List.any_eq_false]
          intro x hx
          have := List.countP_eq_zero.mp hcz x hx
          simpa using this
        have hih := ih st2 st' (fun d hd => hch d (by simp [hd])) (by omega) h
        rw [hih, hany, hcap]
        simp

/-! ## Claim theorems -/

/-- Claim C1: assembling the seven-line sample source (a comment line, then
`@2`, `D=A`, `@3`, `D=D+A`, `@0`, `M=D`) produces exactly the six
16-character words of the expected output, in order, one word per source
instruction, the comment line contributing nothing. -/
theorem claim_c1_sample_program :
    assemble ["// comment".data, "@2".data, "D=A".data, "@3".data,
              "D=D+A".data, "@0".data, "M=D".data] =
      some ("0000000000000010\n1110110000010000\n0000000000000011\n" ++
            "1110000010010000\n0000000000000000\n1110001100001000").data := by
  decide

/-- Refutes claim C3 as stated: the decimal literal `32768` is accepted by
the code generator (`parse::<u16>` allows values up to 65535), and the
emitted word has leftmost character `1`, not `0`. -/
theorem claim_c3_counterexample :
    translate { command_type := .ACommand, symbol := some "32768".data, dest := none,
                comp := none, jump := none, line_number := 0 } [] =
      some "1000000000000000".data
    ∧ ("1000000000000000".data).head? ≠ some '0' := by
  constructor
  · decide
  · decide

/-- Claim C3 (amended): for every `Address` instruction whose symbol is a
decimal literal accepted by the code generator (an unsigned decimal of
value at most 65535), the output is the value's 16-bit big-endian binary
representation; its leftmost character is `0` whenever the value is at
most 32767, and `1` for values from 32768 to 65535. -/
theorem claim_c3_numeric_address (pl : ParsedLine) (t : SymTable) (c : Char)
    (cs : List Char) (n : Nat) (hA : pl.command_type = .ACommand)
    (hsym : pl.symbol = some (c :: cs)) (hd : isNumericChar c = true)
    (hp : parseU16 (c :: cs) = some n) :
    translate pl t = some (bits16 n)
    ∧ (bits16 n).length = 16
    ∧ n ≤ 65535
    ∧ (n ≤ 32767 → (bits16 n).head? = some '0')
    ∧ (32768 ≤ n → (bits16 n).head? = some '1') := by
  have hle := parseU16_le (c :: cs) n hp
  refine ⟨?_, bits16_length n, hle, ?_, ?_⟩
  · rw [translate_numeric pl t c cs hA hsym hd, hp]
    simp only [Option.map_some']
    rw [padTo16_binStr n (by omega)]
  · intro h
    exact bits16_head_low n (by omega)
  · intro h
    exact bits16_head_high n h (by omega)

/-- Witness for claim C3 at the instruction `@2`. -/
theorem claim_c3_numeric_address_witness :
    translate { command_type := .ACommand, symbol := some "2".data, dest := none,
                comp := none, jump := none, line_number := 0 } [] = some (bits16 2)
    ∧ (bits16 2).head? = some '0' := by
  have h := claim_c3_numeric_address
    { command_type := .ACommand, symbol := some "2".data, dest := none,
      comp := none, jump := none, line_number := 0 } [] '2' [] 2 rfl rfl
    (by decide) (by decide)
  exact ⟨h.1, h.2.2.2.1 (by omega)⟩

/-- Refutes claim C4 as stated: in `@2// c` the comment marker occurs
mid-line, yet the preprocessor returns `@` — it also discards the
character immediately before the marker — instead of `@2`; and in `d//`
the remainder is empty, yet the result is `some ""`, not `none`. -/
theorem claim_c4_counterexample :
    preprocess_line "@2// c".data = some ['@']
    ∧ some ['@'] ≠ some "@2".data
    ∧ preprocess_line "d//".data = some []
    ∧ some ([] : List Char) ≠ none := by
  refine ⟨by decide, by decide, by decide, by decide⟩

/-- Claim C4 (amended): when the first `/` of the trimmed line is the
mid-line comment marker, the preprocessor truncates everything from the
character immediately preceding the marker onward (one character more
than the marker itself) and removes all white-space from what remains,
returning `some` of that remainder even when it is empty; the
empty-remainder-to-`none` rule holds for lines without a comment marker,
and a line starting with the marker gives `none`. -/
theorem claim_c4_preprocess (line a rest : List Char) (c : Char) :
    (trimChars line = a ++ c :: '/' :: '/' :: rest → '/' ∉ a → c ≠ '/' →
       preprocess_line line = some (removeWs a))
    ∧ (hasDoubleSlash (trimChars line) = false →
       (preprocess_line line = none ↔ removeWs line = []))
    ∧ (startsWithSlashSlash (trimChars line) = true → preprocess_line line = none) :=
  ⟨fun h1 h2 h3 => preprocess_midline line a rest c h1 h2 h3,
   fun h => preprocess_nocomment line h,
   fun h => preprocess_purecomment line h⟩

/-- Witness for claim C4 on `@ 2 // c` (mid-line comment) and on a blank
line. -/
theorem claim_c4_preprocess_witness :
    preprocess_line "@ 2 // c".data = some (removeWs "@ 2".data)
    ∧ (preprocess_line "  ".data = none ↔ removeWs "  ".data = []) := by
  constructor
  · exact (claim_c4_preprocess "@ 2 // c".data "@ 2".data " c".data ' ').1
      (by decide) (by decide) (by decide)
  · exact (claim_c4_preprocess "  ".data [] [] ' ').2.1 (by decide)

/-- Refutes claim C5 as stated: preprocessing `/ /` yields `//` (the
white-space removal glues the two slashes together), but preprocessing
`//` yields `none`, not `some "//"` — idempotence fails. -/
theorem claim_c5_counterexample :
    preprocess_line "/ /".data = some ('/' :: '/' :: [])
    ∧ preprocess_line ('/' :: '/' :: []) = none := by
  constructor
  · decide
  · decide

/-- Claim C5 (amended): preprocessing is idempotent on every line whose
compact output is non-empty and does not contain the comment marker
`//`: if `preprocess_line l = some s` with `s` non-empty and free of
`//`, then `preprocess_line s = some s`. -/
theorem claim_c5_idempotent (l s : List Char) (h1 : preprocess_line l = some s)
    (h2 : s ≠ []) (h3 : hasDoubleSlash s = false) : preprocess_line s = some s := by
  have hnw := noWs_of_preprocess l s h1
  simp only [preprocess_line]
  rw [trimChars_of_noWs s hnw, h3]
  simp only [Bool.false_eq_true, if_false]
  rw [removeWs_of_noWs s hnw]
  rw [if_neg (by simpa [List.isEmpty_iff] using h2)]

/-- Witness for claim C5 on the line `M = D + A`. -/
theorem claim_c5_idempotent_witness :
    preprocess_line "M=D+A".data = some "M=D+A".data :=
  claim_c5_idempotent "M = D + A".data "M=D+A".data (by decide) (by decide) (by decide)

/-- Refutes claim C6 as stated: processing a `Label` instruction whose name
`X` is already bound (to `5`) does not leave the table unchanged — the
label's binding overwrites, and the lookup afterwards yields `3`, the
label's line number. -/
theorem claim_c6_counterexample :
    getVal? (passLabelsStep ([(some "X".data, "5".data)], 15)
        { command_type := .LCommand, symbol := some "X".data, dest := none,
          comp := none, jump := none, line_number := 3 }).1 (some "X".data) =
      some "3".data
    ∧ getVal? [(some "X".data, "5".data)] (some "X".data) = some "5".data
    ∧ "3".data ≠ "5".data := by
  refine ⟨by decide, by decide, by decide⟩

/-- Claim C6 (amended): for a non-`Label` instruction whose symbol is
already bound, `populate_symbol_table` is a no-op (first binding wins for
variables); a `Label` instruction, however, always installs a fresh
binding of its name to its own line number — for labels the latest
definition wins — while leaving the free-RAM cursor unchanged. -/
theorem claim_c6_rebinding (pl : ParsedLine) (t : SymTable) (a : Int) :
    (pl.command_type ≠ .LCommand → containsKey t pl.symbol = true →
       populate_symbol_table pl t a = (t, a))
    ∧ (pl.command_type = .LCommand →
       getVal? (passLabelsStep (t, a) pl).1 pl.symbol = some (intStr pl.line_number)
       ∧ (passLabelsStep (t, a) pl).2 = a) := by
  constructor
  · exact fun h1 h2 => populate_noop pl t a h1 h2
  · intro hL
    rw [passLabelsStep_of_L (t, a) pl hL]
    exact ⟨getVal?_insert_self t pl.symbol _, rfl⟩

/-- Witness for claim C6: an already-bound variable re-binding is a no-op,
and a label binding of a bound name installs its line number. -/
theorem claim_c6_rebinding_witness :
    populate_symbol_table
        { command_type := .ACommand, symbol := some "X".data, dest := none,
          comp := none, jump := none, line_number := 7 }
        [(some "X".data, "5".data)] 15 = ([(some "X".data, "5".data)], 15)
    ∧ getVal? (passLabelsStep ([(some "Y".data, "5".data)], 15)
        { command_type := .LCommand, symbol := some "Y".data, dest := none,
          comp := none, jump := none, line_number := 4 }).1 (some "Y".data) =
      some (intStr 4) := by
  constructor
  · exact (claim_c6_rebinding
      { command_type := .ACommand, symbol := some "X".data, dest := none,
        comp := none, jump := none, line_number := 7 }
      [(some "X".data, "5".data)] 15).1 (by decide) (by decide)
  · exact ((claim_c6_rebinding
      { command_type := .LCommand, symbol := some "Y".data, dest := none,
        comp := none, jump := none, line_number := 4 }
      [(some "Y".data, "5".data)] 15).2 rfl).1

/-- Refutes claim C7 as stated: the compact instruction `(ABC` has an
unmatched `(`, yet the parser does not fail — it returns a `Label` whose
name is everything after the `(`. -/
theorem claim_c7_counterexample :
    parse_line "(ABC".data 0 =
      some { command_type := .LCommand, symbol := some "ABC".data, dest := none,
             comp := none, jump := none, line_number := 0 }
    ∧ parse_line "(ABC".data 0 ≠ none := by
  constructor
  · decide
  · decide

/-- Claim C7 (amended): the parser fails fatally on an `@` followed by
nothing, but an unmatched `(` is not detected: the input is accepted as a
`Label` whose name is everything after the `(`. -/
theorem claim_c7_parse_failures :
    parse_line "@".data 0 = none
    ∧ parse_line "(ABC".data 0 =
        some { command_type := .LCommand, symbol := some "ABC".data, dest := none,
               comp := none, jump := none, line_number := 0 } := by
  constructor
  · decide
  · decide

/-- Refutes claim C9 as stated: the bare computation `D+1` with no
destination and no jump is not rejected — the assembler encodes it as the
effect-free compute word `1110011111000000`. -/
theorem claim_c9_counterexample :
    assemble ["D+1".data] = some "1110011111000000".data := by
  decide

/-- Claim C9 (amended): a source line consisting of the bare computation
`D+1` is accepted: it parses as a `Compute` instruction with no
destination and no jump, and the code generator encodes it as
`111` + `0011111` + `000` + `000`. -/
theorem claim_c9_bare_computation :
    parse_line "D+1".data 0 =
      some { command_type := .CCommand, symbol := none, dest := none,
             comp := some "D+1".data, jump := none, line_number := 0 }
    ∧ translate { command_type := .CCommand, symbol := none, dest := none,
                  comp := some "D+1".data, jump := none, line_number := 0 }
        initial_symbol_table =
        some ("111".data ++ "0011111".data ++ "000".data ++ "000".data) := by
  constructor
  · decide
  · decide

/-- Claim C10: for an `Address` instruction whose symbol starts with a
digit, the code generator parses the whole symbol as an unsigned 16-bit
decimal and never consults the symbol table (the result is independent of
the table); digit-leading symbols that fail that parse, such as `1X` or
`65536`, abort the run; and the variable pass skips every digit-leading
symbol without binding it. -/
theorem claim_c10_digit_leading (pl : ParsedLine) (t t2 : SymTable)
    (st : SymTable × Int) (c : Char) (cs : List Char)
    (hA : pl.command_type = .ACommand) (hsym : pl.symbol = some (c :: cs))
    (hd : isNumericChar c = true) :
    translate pl t = translate pl t2
    ∧ translate pl t = (parseU16 (c :: cs)).map (fun n => padTo16 (binStr n))
    ∧ translate { pl with symbol := some "1X".data } t = none
    ∧ translate { pl with symbol := some "65536".data } t = none
    ∧ passVarsStep st pl = some st := by
  refine ⟨?_, translate_numeric pl t c cs hA hsym hd, ?_, ?_,
    passVarsStep_numeric st pl c cs hA hsym hd⟩
  · rw [translate_numeric pl t c cs hA hsym hd,
        translate_numeric pl t2 c cs hA hsym hd]
  · have h := translate_numeric { pl with symbol := some "1X".data } t '1' "X".data
      hA rfl (by decide)
    rw [h]
    decide
  · have h := translate_numeric { pl with symbol := some "65536".data } t '6'
      "5536".data hA rfl (by decide)
    rw [h]
    decide

/-- Witness for claim C10 at the instruction `@7`. -/
theorem claim_c10_digit_leading_witness :
    translate { command_type := .ACommand, symbol := some "7".data, dest := none,
                comp := none, jump := none, line_number := 0 } [] =
      (parseU16 "7".data).map (fun n => padTo16 (binStr n))
    ∧ passVarsStep ([], 15)
        { command_type := .ACommand, symbol := some "7".data, dest := none,
          comp := none, jump := none, line_number := 0 } = some ([], 15) := by
  have h := claim_c10_digit_leading
    { command_type := .ACommand, symbol := some "7".data, dest := none,
      comp := none, jump := none, line_number := 0 } [] [] (([], 15)) '7' []
    rfl rfl (by decide)
  exact ⟨h.2.1, h.2.2.2.2⟩

/-- Refutes claim C8 as stated: in `D;J+P` no `=` and no arithmetic
operator precedes the `;`, so the claim demands that the computation be
the single character `D`; but the parser scans the whole line — the `+`
after the `;` suppresses the capture and later overwrites the computation
with `J+P`. -/
theorem claim_c8_counterexample :
    parse_line "D;J+P".data 0 =
      some { command_type := .CCommand, symbol := none, dest := none,
             comp := some "J+P".data, jump := some "J+P".data, line_number := 0 }
    ∧ some "J+P".data ≠ some "D".data := by
  constructor
  · decide
  · decide

/-- Claim C8 (amended): for a compact `Compute` instruction (no `@` or `(`)
whose first `;` is at position `|before|`, a successful parse records the
three characters after that `;` as the jump mnemonic; and when no `;`
occurs after it and the line contains no `=`, none of `+ - & |`, and no
`!` anywhere (the parser scans the whole line, not only the part before
the `;`), the computation is exactly the single character immediately
preceding the `;`. -/
theorem claim_c8_semicolon (before after : List Char) (n : Int) (pl : ParsedLine)
    (hat : '@' ∉ before ++ ';' :: after) (hpar : '(' ∉ before ++ ';' :: after)
    (hsb : ';' ∉ before)
    (hs : parse_line (before ++ ';' :: after) n = some pl) :
    pl.jump = some (after.take 3)
    ∧ (';' ∉ after → hasEq (before ++ ';' :: after) = false →
       hasOp (before ++ ';' :: after) = false → '!' ∉ before ++ ';' :: after →
       ∃ b pre1, before = pre1 ++ [b] ∧ pl.comp = some [b]) := by
  have hfind : findPos (fun x => x == ';') (before ++ ';' :: after)
      = some before.length :=
    findPos_append _ before after ';'
      (fun d hd => beq_eq_false_iff_ne.mpr (fun he => hsb (he ▸ hd))) (by decide)
  rw [parse_line] at hs
  match hgo : parseGo (before ++ ';' :: after) (before ++ ';' :: after) initialPState with
  | none => rw [hgo] at hs; exact absurd hs (by simp)
  | some stf =>
    rw [hgo] at hs
    simp only [Option.some_inj] at hs
    have hjump : stf.jmp = some (((before ++ ';' :: after).drop (before.length + 1)).take 3) := by
      have h := parseGo_jump (before ++ ';' :: after) before.length hfind
        (before ++ ';' :: after) initialPState stf hat hpar hgo
      rw [h, if_pos]
      exact List.any_eq_true.mpr ⟨';', by simp, by decide⟩
    rw [drop_append_cons before after ';'] at hjump
    constructor
    · rw [← hs]
      exact hjump
    · intro hsa hEq hOp hbang
      rcases List.eq_nil_or_concat before with hnil | ⟨pre1, b, hconcat⟩
      · exfalso
        subst hnil
        simp only [List.nil_append] at hgo hfind
        rw [parseGo, if_neg (by decide : ¬(';' : Char) = '@'),
            if_neg (by decide : ¬(';' : Char) = '(')] at hgo
        simp only [List.nil_append] at hEq hOp
        rw [parseCStep_semi_zero (';' :: after) _ (by simpa using hfind) hEq hOp] at hgo
        exact absurd hgo (by simp)
      · have hblen : before.length = pre1.length + 1 := by
          rw [hconcat, List.concat_eq_append]
          simp
        have hget : (before ++ ';' :: after).get? pre1.length = some b := by
          rw [hconcat, List.concat_eq_append, List.append_assoc,
              List.get?_eq_getElem?, List.getElem?_append_right (by simp)]
          simp
        have hch : ∀ d ∈ before ++ ';' :: after, plainChar d = true ∨ d = ';' := by
          intro d hd
          by_cases hds : d = ';'
          · right; exact hds
          · left
            have h1 : d ≠ '@' := fun hh => hat (hh ▸ hd)
            have h2 : d ≠ '(' := fun hh => hpar (hh ▸ hd)
            have h3 : d ≠ '=' := by
              intro hh
              have := List.any_eq_false.mp hEq d hd
              simp [hh] at this
            have h9 : d ≠ '!' := fun hh => hbang (hh ▸ hd)
            have hop := List.any_eq_false.mp hOp d hd
            simp only [Bool.or_eq_true, not_or, beq_iff_eq] at hop
            obtain ⟨h4, h5, h6, h7⟩ :
                ¬d = '+' ∧ ¬d = '-' ∧ ¬d = '&' ∧ ¬d = '|' := by
              tauto
            simp [plainChar, h1, h2, h3, h4, h5, h6, h7, h9, hds]
        have hcount : List.countP (fun c => c == ';') (before ++ ';' :: after) ≤ 1 := by
          rw [List.countP_append, List.countP_cons]
          have hb0 : List.countP (fun c => c == ';') before = 0 := by
            apply List.countP_eq_zero.mpr
            intro d hd
            simp only [beq_iff_eq]
            intro hh
            exact hsb (hh ▸ hd)
          have ha0 : List.countP (fun c => c == ';') after = 0 := by
            apply List.countP_eq_zero.mpr
            intro d hd
            simp only [beq_iff_eq]
            intro hh
            exact hsa (hh ▸ hd)
          rw [hb0, ha0]
          simp
        have htemp := parseGo_temp (before ++ ';' :: after) pre1.length b
          (by rw [← hblen]; exact hfind) hEq hOp hget
          (before ++ ';' :: after) initialPState stf hch hcount hgo
        rw [if_pos (List.any_eq_true.mpr ⟨';', by simp, by decide⟩)] at htemp
        refine ⟨b, pre1, hconcat.trans (List.concat_eq_append pre1 b), ?_⟩
        rw [← hs]
        show (if stf.temp_comp.isEmpty then none else some stf.temp_comp) = some [b]
        rw [htemp]
        simp [initialPState]

/-- Witness for claim C8 on the instruction `D;JGT`. -/
theorem claim_c8_semicolon_witness :
    ({ command_type := .CCommand, symbol := none, dest := none,
       comp := some "D".data, jump := some "JGT".data,
       line_number := 0 } : ParsedLine).jump = some (("JGT".data).take 3)
    ∧ ∃ b pre1, "D".data = pre1 ++ [b] ∧
        ({ command_type := .CCommand, symbol := none, dest := none,
           comp := some "D".data, jump := some "JGT".data,
           line_number := 0 } : ParsedLine).comp = some [b] := by
  have h := claim_c8_semicolon "D".data "JGT".data 0
    { command_type := .CCommand, symbol := none, dest := none,
      comp := some "D".data, jump := some "JGT".data, line_number := 0 }
    (by decide) (by decide) (by decide) (by decide)
  exact ⟨h.1, h.2 (by decide) (by decide) (by decide) (by decide)⟩

/-- Claim C2: for a label name defined exactly once by a `Label`
instruction, the symbol table produced by both resolution passes binds the
name to the number of real instructions preceding the label — the
`address_index` (line number) of the first non-label instruction following
the label, when one exists; a label at the top of the file (no real
instruction before it) resolves to `0`; forward and backward `Address`
references to the name translate identically; and the first variable
bound in pass 2 (the first digit-free `Address` symbol unbound after the
label pass) resolves to address `16`. -/
theorem claim_c2_label_resolution (contents : List (List Char))
    (lines : List ParsedLine) (ft : SymTable) (name : List Char)
    (pre post : List ParsedLine) (lab : ParsedLine)
    (hpar : parse_each_line contents = some lines)
    (hfp : first_pass lines initial_symbol_table = some ft)
    (hdec : lines = pre ++ lab :: post)
    (hlabL : lab.command_type = .LCommand) (hlabS : lab.symbol = some name)
    (huniq : ∀ pl, (pl ∈ pre ∨ pl ∈ post) →
       ¬(pl.command_type = .LCommand ∧ pl.symbol = some name)) :
    getVal? ft (some name) = some (intStr (realCount pre))
    ∧ (∀ mpre mpl mpost, post = mpre ++ mpl :: mpost → isReal mpl = true →
         (∀ q ∈ mpre, isReal q = false) →
         realCount (pre ++ lab :: mpre) = realCount pre
         ∧ mpl.line_number = (realCount pre : Int))
    ∧ (realCount pre = 0 → getVal? ft (some name) = some ['0'])
    ∧ (∀ a1 a2 : ParsedLine, a1.command_type = .ACommand →
         a2.command_type = .ACommand → a1.symbol = some name →
         a2.symbol = some name → translate a1 ft = translate a2 ft)
    ∧ (∀ (c : Char) (cs : List Char) vpre vpl vpost,
         lines = vpre ++ vpl :: vpost → vpl.command_type = .ACommand →
         vpl.symbol = some (c :: cs) → isNumericChar c = false →
         containsKey (List.foldl passLabelsStep (initial_symbol_table, 15) lines).1
           (some (c :: cs)) = false →
         (∀ q ∈ vpre, q.command_type = .ACommand → ∀ c1 cs1,
            q.symbol = some (c1 :: cs1) → isNumericChar c1 = false →
            containsKey
              (List.foldl passLabelsStep (initial_symbol_table, 15) lines).1
              (some (c1 :: cs1)) = true) →
         getVal? ft (some (c :: cs)) = some (intStr 16)) := by
  obtain ⟨p, hfold, hp1⟩ := first_pass_eq lines initial_symbol_table ft hfp
  have hlabel :
      getVal? (List.foldl passLabelsStep (initial_symbol_table, 15) lines).1
        (some name) = some (intStr lab.line_number) := by
    rw [hdec]
    exact passLabels_unique pre post lab name (initial_symbol_table, 15) hlabL hlabS
      (fun pl hp hL hS => huniq pl (Or.inr hp) ⟨hL, hS⟩)
  have hln : lab.line_number = (realCount pre : Int) :=
    parse_each_line_lineNumber contents lines hpar pre lab post hdec
      (by rw [hlabL]; exact fun hh => nomatch hh)
  have hmain : getVal? ft (some name) = some (intStr (realCount pre)) := by
    have hpres := passVars_preserve lines (some name) (intStr lab.line_number)
      (List.foldl passLabelsStep (initial_symbol_table, 15) lines) p hfold hlabel
    rw [hp1] at hpres
    rw [hpres, hln]
  refine ⟨hmain, ?_, ?_, ?_, ?_⟩
  · intro mpre mpl mpost hpost hreal hmq
    have hcnt : realCount (pre ++ lab :: mpre) = realCount pre := by
      rw [realCount, List.countP_append, List.countP_cons]
      have hlabr : isReal lab = false := by simp [isReal, hlabL]
      have hm0 : List.countP isReal mpre = 0 := List.countP_eq_zero.mpr
        (fun q hq => by simp [hmq q hq])
      rw [hm0, hlabr, realCount]
      simp
    refine ⟨hcnt, ?_⟩
    have hdec2 : lines = (pre ++ lab :: mpre) ++ mpl :: mpost := by
      rw [hdec, hpost]
      simp
    have hmplI : mpl.command_type ≠ .ICommand := by
      intro hh
      rw [isReal, hh] at hreal
      simp at hreal
    have := parse_each_line_lineNumber contents lines hpar (pre ++ lab :: mpre)
      mpl mpost hdec2 hmplI
    rw [this, hcnt]
  · intro h0
    rw [hmain, h0]
    decide
  · intro a1 a2 h1 h2 hs1 hs2
    simp only [translate, h1, h2, hs1, hs2, if_true]
  · intro c cs vpre vpl vpost hvdec hvA hvS hvd hunb hprev
    generalize hT : List.foldl passLabelsStep (initial_symbol_table, 15) lines = T
      at hfold hunb hprev
    have hTa : T.2 = 15 := by
      rw [← hT]
      exact passLabels_snd lines (initial_symbol_table, 15)
    rw [hvdec, List.foldlM_append] at hfold
    rcases Option.bind_eq_some.mp hfold with ⟨m, hm, hrest⟩
    have hmT : m = (T.1, T.2) :=
      passVars_prefix_noop vpre T.1 T.2
        (fun q hq hqA c1 cs1 hqs hqd => hprev q hq hqA c1 cs1 hqs hqd) m hm
    rw [List.foldlM_cons] at hrest
    rcases Option.bind_eq_some.mp hrest with ⟨st2, hstep, hrest2⟩
    have hstep2 : st2 = (insertST T.1 vpl.symbol (intStr (T.2 + 1)), T.2 + 1) := by
      rw [hmT] at hstep
      have hsv : passVarsStep (T.1, T.2) vpl
          = some (populate_symbol_table vpl T.1 T.2) := by
        simp [passVarsStep, hvA, hvS, hvd]
      rw [hsv] at hstep
      simp only [Option.some_inj] at hstep
      rw [← hstep]
      rw [populate_var vpl T.1 T.2 (by rw [hvA]; exact fun hh => nomatch hh)
            (by rw [hvS]; exact hunb)]
    have hbind : getVal? st2.1 (some (c :: cs)) = some (intStr 16) := by
      rw [hstep2]
      simp only []
      rw [hTa, ← hvS]
      exact getVal?_insert_self T.1 vpl.symbol (intStr 16)
    have hpres := passVars_preserve vpost (some (c :: cs)) (intStr 16) st2 p
      hrest2 hbind
    rw [hp1] at hpres
    exact hpres

/-- Witness for claim C2 on the specification's label-and-variable example:
`LOOP` resolves to the count of real instructions before it (zero, hence
`0`), and the first pass-2 variable `i` resolves to `16`. -/
theorem claim_c2_label_resolution_witness :
    getVal? c2wFt (some "LOOP".data) =
      some (intStr (realCount ([] : List ParsedLine)))
    ∧ getVal? c2wFt (some "i".data) = some (intStr 16)
    ∧ intStr (realCount ([] : List ParsedLine)) = ['0']
    ∧ intStr 16 = "16".data := by
  have h := claim_c2_label_resolution c2wContents c2wLines c2wFt "LOOP".data
    [] c2wPost c2wLab (by decide) (by decide) (by decide) (by decide) (by decide)
    (by
      intro pl hmem
      rcases hmem with hmem | hmem
      · exact absurd hmem (List.not_mem_nil pl)
      · have hmem2 : pl ∈ c2wPost := hmem
        simp only [c2wPost, List.mem_cons, List.mem_singleton,
          List.not_mem_nil, or_false] at hmem2
        rcases hmem2 with rfl | rfl | rfl | rfl <;> decide)
  refine ⟨h.1, ?_, by decide, by decide⟩
  exact h.2.2.2.2 'i' [] [c2wLab]
    { command_type := .ACommand, symbol := some "i".data, dest := none,
      comp := none, jump := none, line_number := 0 }
    (c2wPost.drop 1) (by decide) (by decide) (by decide) (by decide) (by decide)
    (by
      intro q hq
      have hq2 : q = c2wLab := by
        simpa using hq
      subst hq2
      intro hqA
      exact absurd hqA (by decide))

end HackAssembler

